import Mathlib

/-!
Verification of the task-tree data model of the mcp_planning repository.

The development shallowly embeds the Python sources:

* `src/mcp_todo/models.py` — the `Task` / `TaskList` model used by the MCP
  server: positional identifiers (`Task.get_id`), markdown rendering,
  identifier resolution (`TaskList.get_task_by_id`), state update, deletion,
  and JSON persistence (`to_dict` / `save` / `load`).
* `src/mcp_planning/server.py` — the MCP tools `add_task`, `add_subtask`,
  `update_task_state`, `delete_task`, modelled as pure functions from a
  durable store (the per-identity JSON record) to a result and a new store.
* `src/mcp_planning/task.py` and `src/mcp_planning/task_list.py` — the
  uuid-keyed draft model, embedded separately in namespace `Planning`.

Modelling conventions:

* Python objects carry a `parent` back-pointer; in every tree reachable
  through the public operations the parent of a task is exactly the
  `TaskList` whose `tasks` list contains it (`TaskList.add_task` and
  `TaskList.load` both establish this and nothing breaks it).  The embedding
  therefore passes the sibling list explicitly where the code reads
  `self.parent.tasks`, and a `parentIsNone` flag for the `not self.parent`
  test (false on every task stored in a list).
* Python `==` on tasks is the user-defined `__eq__`, which compares
  description, state and the subtasks lists recursively and ignores parents;
  on trees whose `subtasks` are always initialized it is exactly structural
  equality of the embedded trees, so the embedding's `==` is used for it.
* Mutation through an alias returned by `get_task_by_id` is embedded as a
  functional update at the resolved position (`goModify`), whose recursion
  mirrors the resolving recursion branch for branch.
* `str.split(".")` is embedded by `splitDots` (character-level split, so
  that closed terms evaluate in the kernel); `".".join(parts)` by
  `joinDots`.  Re-splitting a joined list of dot-free parts yields the same
  list, which justifies passing the tail of the segment list directly where
  the code joins and re-splits.
* `int(...)` is embedded by `pyInt?` (optional surrounding ASCII whitespace,
  optional sign, ASCII digits with single underscores between digits; `None`
  encodes the `ValueError` that the code catches).
* File contents are modelled as the JSON value written (`JVal`); exceptions
  escaping a function are modelled by `Option`/`PyResult`.
* The `subtasks: TaskList | None` field is `List Task` in the main model,
  justified by `model_post_init`; the raw model `RTask` at the end keeps the
  `Option` and verifies that justification (the `assert`s can never fail).
-/

namespace MP

/-- `TaskState` from `src/mcp_todo/models.py` (same four values in
`src/mcp_planning/task_state.py`). -/
inductive TaskState where
  | pending
  | in_progress
  | completed
  | failed
deriving DecidableEq, Repr

/-- `TaskState.value` — the string payload of each enum member. -/
def TaskState.value : TaskState → String
  | .pending => "pending"
  | .in_progress => "in_progress"
  | .completed => "completed"
  | .failed => "failed"

/-- `TaskState(s)` — constructing the enum from its value; `none` encodes the
`ValueError` raised on an unrecognized string. -/
def TaskState.ofValue? (s : String) : Option TaskState :=
  if s = "pending" then some .pending
  else if s = "in_progress" then some .in_progress
  else if s = "completed" then some .completed
  else if s = "failed" then some .failed
  else none

/-- `Task` from `src/mcp_todo/models.py`: description, state, and the
(always-initialized, see `model_post_init`) ordered subtasks list. -/
inductive Task where
  | mk (description : String) (state : TaskState) (subtasks : List Task)

def Task.description : Task → String
  | .mk d _ _ => d

def Task.state : Task → TaskState
  | .mk _ s _ => s

def Task.subtasks : Task → List Task
  | .mk _ _ ts => ts

mutual

/-- `Task.__eq__`: compare description, state and the subtasks lists
recursively (parents are ignored by the Python code). -/
def Task.beq : Task → Task → Bool
  | .mk d1 s1 ts1, .mk d2 s2 ts2 => d1 == d2 && s1 == s2 && Task.beqList ts1 ts2

/-- `TaskList.__eq__`: same length and pairwise `Task.__eq__`. -/
def Task.beqList : List Task → List Task → Bool
  | [], [] => true
  | t :: ts, u :: us => Task.beq t u && Task.beqList ts us
  | _, _ => false

end

mutual

theorem Task.beq_iff : ∀ a b : Task, Task.beq a b = true ↔ a = b
  | .mk d1 s1 ts1, .mk d2 s2 ts2 => by
    simp only [Task.beq, Bool.and_eq_true, beq_iff_eq, Task.mk.injEq]
    constructor
    · rintro ⟨⟨h1, h2⟩, h3⟩
      exact ⟨h1, h2, (Task.beqList_iff ts1 ts2).1 h3⟩
    · rintro ⟨h1, h2, h3⟩
      exact ⟨⟨h1, h2⟩, (Task.beqList_iff ts1 ts2).2 h3⟩

theorem Task.beqList_iff : ∀ as bs : List Task, Task.beqList as bs = true ↔ as = bs
  | [], [] => by simp [Task.beqList]
  | t :: ts, u :: us => by
    simp only [Task.beqList, Bool.and_eq_true, List.cons.injEq]
    exact and_congr (Task.beq_iff t u) (Task.beqList_iff ts us)
  | [], _ :: _ => by simp [Task.beqList]
  | _ :: _, [] => by simp [Task.beqList]

end

instance : DecidableEq Task := fun a b => decidable_of_iff _ (Task.beq_iff a b)

instance : BEq Task := ⟨Task.beq⟩

instance : LawfulBEq Task where
  eq_of_beq h := (Task.beq_iff _ _).1 h
  rfl := (Task.beq_iff _ _).2 rfl

/-- Structural strong induction for the nested inductive `Task`. -/
theorem Task.strongRec {P : Task → Prop}
    (h : ∀ d s ts, (∀ t ∈ ts, P t) → P (.mk d s ts)) : ∀ t, P t := by
  intro t
  match t with
  | .mk d s ts => exact h d s ts (fun t' ht' => Task.strongRec h t')
termination_by t => sizeOf t
decreasing_by
  have := List.sizeOf_lt_of_mem ht'
  simp only [Task.mk.sizeOf_spec]
  omega

/-- String concatenation of a list, front to back — the effect of the
`result += ...` accumulation loops in the rendering code. -/
def strJoin : List String → String
  | [] => ""
  | s :: rest => s ++ strJoin rest

/-- `"  " * level` — the indentation of a rendered task line. -/
def indentOf (n : Nat) : String := strJoin (List.replicate n "  ")

/-- `Task.get_id` (models.py:41-57).  `parentIsNone` stands for
`not self.parent`; `siblings` for `self.parent.tasks`.  The position is
located with Python `==`, i.e. value equality (`Task.__eq__`), scanning from
the front with 1-based enumeration. -/
def Task.get_id (parentIsNone : Bool) (siblings : List Task) (self : Task)
    (parent_id : String) : String :=
  if parentIsNone then "1"
  else if siblings = [] then "1"
  else
    match siblings.findIdx? (fun t => t == self) with
    | some i => if parent_id ≠ "" then parent_id ++ "." ++ toString (i + 1) else toString (i + 1)
    | none => "?"

mutual

/-- `Task.to_markdown` (models.py:83-98): one line for this task followed by
the recursively rendered subtasks, indented one more level and with this
task's identifier as their `parent_id`. -/
def Task.to_markdown : List Task → Task → Nat → String → String
  | siblings, .mk d st subs, level, parent_id =>
    let task_id := Task.get_id false siblings (.mk d st subs) parent_id
    let checkbox := if st = TaskState.completed then "x" else " "
    let indent := indentOf level
    let line := indent ++ "- [" ++ checkbox ++ "] " ++ task_id ++ ": " ++ d ++ "\n"
    line ++ Task.to_markdownList subs subs (level + 1) task_id

/-- The `for subtask in self.subtasks.tasks` accumulation loop of
`Task.to_markdown` (models.py:94-96): each subtask rendered against the
sibling list it lives in. -/
def Task.to_markdownList : List Task → List Task → Nat → String → String
  | _, [], _, _ => ""
  | siblings, t :: rest, level, parent_id =>
    Task.to_markdown siblings t level parent_id ++
      Task.to_markdownList siblings rest level parent_id

end

/-- `TaskList.to_markdown` (models.py:288-293): the header `"# Task List\n\n"`
followed by each root task rendered at level 0 with empty `parent_id`. -/
def TaskList.to_markdown (tasks : List Task) : String :=
  "# Task List\n\n" ++ Task.to_markdownList tasks tasks 0 ""

/-- Modelled from the spec: a rendered line is
`<indent> - [<x|space>] <identifier>: <description>` with indent two spaces
per depth level and the box checked exactly for a completed task. -/
def lineOf (level : Nat) (tid : String) (t : Task) : String :=
  indentOf level ++ "- [" ++ (if t.state = TaskState.completed then "x" else " ") ++ "] " ++
    tid ++ ": " ++ t.description ++ "\n"

mutual

/-- Depth-first flatten of a task's tree, pairing every node with its depth
and the identifier printed for it (parent before children, siblings in list
order). -/
def dfsTask : List Task → Task → Nat → String → List (Nat × String × Task)
  | siblings, .mk d st subs, level, parent_id =>
    let tid := Task.get_id false siblings (.mk d st subs) parent_id
    (level, tid, .mk d st subs) :: dfsList subs subs (level + 1) tid

/-- Depth-first flatten of a sibling list. -/
def dfsList : List Task → List Task → Nat → String → List (Nat × String × Task)
  | _, [], _, _ => []
  | siblings, t :: rest, level, parent_id =>
    dfsTask siblings t level parent_id ++ dfsList siblings rest level parent_id

end

/-- Depth-first flatten of the whole forest. -/
def dfsForest (tasks : List Task) : List (Nat × String × Task) :=
  dfsList tasks tasks 0 ""

/-- Modelled from the spec: the header line, a blank line, then one line per
node in depth-first order. -/
def specMarkdownRender (tasks : List Task) : String :=
  "# Task List\n\n" ++ strJoin ((dfsForest tasks).map (fun e => lineOf e.1 e.2.1 e.2.2))

/-- Character-level worker for `splitDots`: `acc` holds the characters of the
current piece, in reverse. -/
def splitDotsAux : List Char → List Char → List String
  | [], acc => [String.mk acc.reverse]
  | c :: cs, acc =>
    if c = '.' then String.mk acc.reverse :: splitDotsAux cs []
    else splitDotsAux cs (c :: acc)

/-- Python `task_id.split(".")`: splitting on a non-empty separator, so the
result is always non-empty and each piece is free of dots. -/
def splitDots (s : String) : List String := splitDotsAux s.toList []

/-- Python `".".join(parts)`. -/
def joinDots : List String → String
  | [] => ""
  | [s] => s
  | s :: rest => s ++ "." ++ joinDots rest

/-- Python whitespace stripped by `int(...)` (ASCII subset). -/
def isPySpace (c : Char) : Bool :=
  c == ' ' || c == '\t' || c == '\n' || c == '\r' || c == '\x0b' || c == '\x0c'

/-- Digit run accepted by `int(...)`: ASCII digits, a single underscore
allowed between two digits. -/
def pyDigits : Nat → List Char → Option Nat
  | acc, [] => some acc
  | acc, c :: cs =>
    if c.isDigit then pyDigits (10 * acc + (c.toNat - 48)) cs
    else if c = '_' then
      match cs with
      | c2 :: cs2 => if c2.isDigit then pyDigits (10 * acc + (c2.toNat - 48)) cs2 else none
      | [] => none
    else none

/-- Sign handling of `int(...)` on the stripped character list. -/
def pyIntCore : List Char → Option Int
  | [] => none
  | '+' :: cs =>
    match cs with
    | c :: _ => if c.isDigit then (pyDigits 0 cs).map Int.ofNat else none
    | [] => none
  | '-' :: cs =>
    match cs with
    | c :: _ => if c.isDigit then (pyDigits 0 cs).map (fun n => -(Int.ofNat n)) else none
    | [] => none
  | c :: cs => if c.isDigit then (pyDigits 0 (c :: cs)).map Int.ofNat else none

/-- Python `int(s)` on a decimal string; `none` encodes the `ValueError` the
resolution code catches. -/
def pyInt? (s : String) : Option Int :=
  pyIntCore (((s.toList.dropWhile (isPySpace ·)).reverse.dropWhile (isPySpace ·)).reverse)

/-- A segment that the Python code accepts: it parses as the integer `k` and
`k` is positive. -/
def segOk (s : String) (k : Nat) : Prop := pyInt? s = some (k : Int) ∧ 1 ≤ k

/-- Segment-list worker of `TaskList.get_task_by_id` (models.py:163-189).
`index = int(part) - 1`; out-of-range or unparsable segments yield `None`.
On a recursive step the code joins the remaining parts and re-splits them in
the callee, which restores the same list (parts are dot-free); the callee's
`if not task_id or not self.tasks` test is the `joinDots`/`subtasks = []`
condition here. -/
def goResolve : List Task → List String → Option Task
  | _, [] => none
  | ts, [p] =>
    match pyInt? p with
    | none => none
    | some k =>
      if h : k - 1 < 0 ∨ (ts.length : Int) ≤ k - 1 then none
      else some (ts.get ⟨(k - 1).toNat, by omega⟩)
  | ts, p :: q :: rs =>
    match pyInt? p with
    | none => none
    | some k =>
      if h : k - 1 < 0 ∨ (ts.length : Int) ≤ k - 1 then none
      else
        let t := ts.get ⟨(k - 1).toNat, by omega⟩
        if joinDots (q :: rs) = "" ∨ t.subtasks = [] then none
        else goResolve t.subtasks (q :: rs)

/-- `TaskList.get_task_by_id`: the guard `if not task_id or not self.tasks`
followed by resolution over the split segments. -/
def TaskList.get_task_by_id (tasks : List Task) (task_id : String) : Option Task :=
  if task_id = "" ∨ tasks = [] then none
  else goResolve tasks (splitDots task_id)

/-- Modelled from the spec: "first segment indexes (1-based) into the tree's
roots; each subsequent segment indexes into the previously resolved node's
children"; out-of-range (≤ 0 or > sibling count) fails. -/
def specNodeAtPath : List Task → List Nat → Option Task
  | _, [] => none
  | ts, [k] =>
    if h : 1 ≤ k ∧ k ≤ ts.length then some (ts.get ⟨k - 1, by omega⟩) else none
  | ts, k :: k2 :: ks =>
    if h : 1 ≤ k ∧ k ≤ ts.length then
      specNodeAtPath (ts.get ⟨k - 1, by omega⟩).subtasks (k2 :: ks)
    else none
termination_by ts ks => ks.length

/-- `t` is a node of the tree rooted at `r` (`r` itself or a node of some
subtask's tree). -/
inductive OccursIn : Task → Task → Prop
  | refl (t : Task) : OccursIn t t
  | child {t c r : Task} : c ∈ r.subtasks → OccursIn t c → OccursIn t r

/-- Replace the subtasks list, keeping description and state — the effect on
the parent node of mutating `parent_task.subtasks.tasks` through the alias. -/
def Task.setSubtasks : Task → List Task → Task
  | .mk d s _, subs => .mk d s subs

/-- `task.state = state` through the alias returned by resolution. -/
def Task.setState : Task → TaskState → Task
  | .mk d _ subs, st => .mk d st subs

/-- Functional counterpart of "resolve `task_id`, then mutate the resolved
node in place": the recursion mirrors `goResolve` branch for branch and
rebuilds the tree along the resolved path, applying `f` at the node and
returning `f`'s first component. -/
def goModify {β : Type} (f : Task → β × Task) : List Task → List String → Option (β × List Task)
  | _, [] => none
  | ts, [p] =>
    match pyInt? p with
    | none => none
    | some k =>
      if h : k - 1 < 0 ∨ (ts.length : Int) ≤ k - 1 then none
      else
        let r := f (ts.get ⟨(k - 1).toNat, by omega⟩)
        some (r.1, ts.set (k - 1).toNat r.2)
  | ts, p :: q :: rs =>
    match pyInt? p with
    | none => none
    | some k =>
      if h : k - 1 < 0 ∨ (ts.length : Int) ≤ k - 1 then none
      else
        let t := ts.get ⟨(k - 1).toNat, by omega⟩
        if joinDots (q :: rs) = "" ∨ t.subtasks = [] then none
        else
          (goModify f t.subtasks (q :: rs)).map
            (fun r => (r.1, ts.set (k - 1).toNat (Task.setSubtasks t r.2)))

/-- `TaskList.update_task_state` (models.py:191-197): resolve, set the state
through the alias, report success. -/
def TaskList.update_task_state (tasks : List Task) (task_id : String) (st : TaskState) :
    Bool × List Task :=
  match (if task_id = "" ∨ tasks = [] then none
         else goModify (fun t => ((), Task.setState t st)) tasks (splitDots task_id)) with
  | some r => (true, r.2)
  | none => (false, tasks)

/-- `Task.delete` (models.py:59-81): delete the subtask at 1-based index
`task_id` from this task's subtasks.  The `if self.subtasks is None` branch
is unreachable in the main model (see the raw model below). -/
def Task.deleteSub : Task → String → Bool × Task
  | .mk d s subs, p =>
    match pyInt? p with
    | none => (false, .mk d s subs)
    | some k =>
      if 0 ≤ k - 1 ∧ k - 1 < (subs.length : Int) then
        (true, .mk d s (subs.eraseIdx (k - 1).toNat))
      else (false, .mk d s subs)

/-- `TaskList.delete` (models.py:199-233): single-segment identifiers pop the
indexed root; multi-segment identifiers resolve the parent
(`get_task_by_id` on the dot-joined initial segments) and delegate to
`Task.delete` with the last segment. -/
def TaskList.delete (tasks : List Task) (task_id : String) : Bool × List Task :=
  if task_id = "" ∨ tasks = [] then (false, tasks)
  else
    match splitDots task_id with
    | [] => (false, tasks)
    | [p] =>
      match pyInt? p with
      | none => (false, tasks)
      | some k =>
        if 0 ≤ k - 1 ∧ k - 1 < (tasks.length : Int) then (true, tasks.eraseIdx (k - 1).toNat)
        else (false, tasks)
    | p :: q :: rs =>
      let initSegs := (p :: q :: rs).dropLast
      let lastSeg := (p :: q :: rs).getLast (by simp)
      if joinDots initSegs = "" then (false, tasks)
      else
        match goModify (fun t => Task.deleteSub t lastSeg) tasks initSegs with
        | some r => (r.1, r.2)
        | none => (false, tasks)

/-- Segment-list worker of the server's delete tool (server.py:116-152):
resolve the full identifier, then `parent.tasks.remove(task)` — removal of
the first element of the resolved node's sibling list that compares equal
(by value) to it, guarded by the (always true) `task in parent.tasks`. -/
def goServerDelete : List Task → List String → Option (List Task)
  | _, [] => none
  | ts, [p] =>
    match pyInt? p with
    | none => none
    | some k =>
      if h : k - 1 < 0 ∨ (ts.length : Int) ≤ k - 1 then none
      else
        let t := ts.get ⟨(k - 1).toNat, by omega⟩
        if ts.contains t then some (ts.erase t) else none
  | ts, p :: q :: rs =>
    match pyInt? p with
    | none => none
    | some k =>
      if h : k - 1 < 0 ∨ (ts.length : Int) ≤ k - 1 then none
      else
        let t := ts.get ⟨(k - 1).toNat, by omega⟩
        if joinDots (q :: rs) = "" ∨ t.subtasks = [] then none
        else (goServerDelete t.subtasks (q :: rs)).map
          (fun subs' => ts.set (k - 1).toNat (Task.setSubtasks t subs'))

/-- JSON values as written by `json.dumps` of `to_dict` output: this schema
only ever holds strings, arrays, objects and `null`. -/
inductive JVal where
  | jnull
  | jstr (s : String)
  | jarr (l : List JVal)
  | jobj (l : List (String × JVal))

/-- Python `dict[key]` / `dict.get(key)` on an object's field list (keys
written by `to_dict` are unique, so first match suffices). -/
def jGet (l : List (String × JVal)) (k : String) : Option JVal :=
  (l.find? (fun p => p.1 == k)).map (fun p => p.2)

/-- Python truthiness of the JSON values this schema produces: empty string,
empty list, empty dict and `None` are falsy. -/
def jTruthy : JVal → Bool
  | .jnull => false
  | .jstr s => !(s == "")
  | .jarr l => !l.isEmpty
  | .jobj l => !l.isEmpty

mutual

/-- `Task.to_dict` (models.py:100-106): description, state value, and the
subtasks wrapped as `TaskList.to_dict` output (`{"tasks": [...]}`; the
`if self.subtasks` test is always true since a `TaskList` object is truthy). -/
def Task.to_dict : Task → JVal
  | .mk d st subs =>
    .jobj [("description", .jstr d), ("state", .jstr st.value),
           ("subtasks", .jobj [("tasks", .jarr (Task.to_dictList subs))])]

/-- The list comprehension of `TaskList.to_dict` (models.py:298). -/
def Task.to_dictList : List Task → List JVal
  | [] => []
  | t :: rest => Task.to_dict t :: Task.to_dictList rest

end

theorem to_dictList_eq_map (l : List Task) : Task.to_dictList l = l.map Task.to_dict := by
  induction l with
  | nil => rfl
  | cons t rest ih => rw [Task.to_dictList, List.map_cons, ih]

/-- `TaskList.to_dict` (models.py:295-299). -/
def TaskList.to_dict (tasks : List Task) : JVal :=
  .jobj [("tasks", .jarr (Task.to_dictList tasks))]

theorem jGet_sizeOf_lt {l : List (String × JVal)} {k : String} {v : JVal}
    (h : jGet l k = some v) : sizeOf v < sizeOf l := by
  unfold jGet at h
  obtain ⟨pr, hfind, hv⟩ := Option.map_eq_some'.1 h
  have hmem := List.mem_of_find?_eq_some hfind
  have := List.sizeOf_lt_of_mem hmem
  cases pr with
  | mk a b => subst hv; simp only [Prod.mk.sizeOf_spec] at this ⊢; omega

/-- The test `if task_data.get("subtasks") and task_data["subtasks"].get("tasks")`
of `create_tasks` (models.py:277): `some (some items)` means both values are
truthy and `items` is the nested task array to recurse into; `some none`
means the condition is falsy (the new task keeps its empty subtasks list);
`none` encodes a crash (`.get` on a non-dict, or iterating a non-list). -/
def subtasksItems (fields : List (String × JVal)) : Option (Option (List JVal)) :=
  match jGet fields "subtasks" with
  | none => some none
  | some sj =>
    if jTruthy sj then
      match sj with
      | .jobj sfields =>
        (match jGet sfields "tasks" with
        | none => some none
        | some tj =>
          if jTruthy tj then
            match tj with
            | .jarr items => some (some items)
            | _ => none
          else some none)
      | _ => none
    else some none

theorem subtasksItems_sizeOf {fields : List (String × JVal)} {items : List JVal}
    (h : subtasksItems fields = some (some items)) : sizeOf items < sizeOf fields := by
  unfold subtasksItems at h
  split at h
  · exact Option.noConfusion (Option.some.inj h)
  · rename_i sj hsj
    have h1 := jGet_sizeOf_lt hsj
    split at h
    · split at h
      · rename_i sfields
        split at h
        · exact Option.noConfusion (Option.some.inj h)
        · rename_i tj htj
          have h2 := jGet_sizeOf_lt htj
          split at h
          · split at h
            · rename_i items'
              obtain rfl := Option.some.inj (Option.some.inj h)
              simp only [JVal.jobj.sizeOf_spec, JVal.jarr.sizeOf_spec] at *
              omega
            · exact Option.noConfusion h
          · exact Option.noConfusion (Option.some.inj h)
      · exact Option.noConfusion h
    · exact Option.noConfusion (Option.some.inj h)

mutual

/-- One `Task(...)` construction step of `TaskList.load`'s `create_tasks`
(models.py:266-280): read description and state, then recurse into
`task_data["subtasks"]["tasks"]` only when the `if` of models.py:277 passes
(see `subtasksItems`); `none` encodes an escaping exception (missing key,
bad state value, ill-shaped value). -/
def parseTask : JVal → Option Task
  | .jobj fields =>
    match jGet fields "description", jGet fields "state" with
    | some (.jstr d), some (.jstr sv) =>
      (match TaskState.ofValue? sv with
      | some st =>
        (match hsub : subtasksItems fields with
        | some (some items) => (parseTasks items).map (Task.mk d st)
        | some none => some (.mk d st [])
        | none => none)
      | none => none)
    | _, _ => none
  | _ => none
termination_by j => sizeOf j
decreasing_by
  have := subtasksItems_sizeOf hsub
  simp only [JVal.jobj.sizeOf_spec]
  omega

/-- The `for task_data in task_data_list` loop of `create_tasks`. -/
def parseTasks : List JVal → Option (List Task)
  | [] => some []
  | j :: rest =>
    match parseTask j, parseTasks rest with
    | some t, some ts => some (t :: ts)
    | _, _ => none
termination_by l => sizeOf l
decreasing_by
  · simp only [List.cons.sizeOf_spec]; omega
  · simp only [List.cons.sizeOf_spec]; omega

end

/-- The durable per-identity record: `none` when no `task_list.json` exists. -/
abbrev Store := Option JVal

/-- `TaskList.load` (models.py:251-286): missing record yields an empty list;
otherwise `create_tasks(data["tasks"], task_list)` when the key is present. -/
def loadRecord : Store → Option (List Task)
  | none => some []
  | some j =>
    match j with
    | .jobj fields =>
      match jGet fields "tasks" with
      | some (.jarr items) => parseTasks items
      | some _ => none
      | none => some []
    | _ => none

/-- `TaskList.save` (models.py:235-249): the record written is the JSON of
`to_dict` (directory handling and the returned path are not modelled). -/
def TaskList.save (tasks : List Task) : JVal := TaskList.to_dict tasks

/-- `TaskList.add_task` (models.py:157-161): append a fresh pending task —
`Task(description=...)` followed by `model_post_init`, which initializes the
subtasks list — and return it. -/
def newTask (d : String) : Task := .mk d .pending []

/-- Result of a server tool call: normal return or a raised exception. -/
inductive PyResult (α : Type) where
  | ok (a : α)
  | raised (msg : String)
deriving DecidableEq

/-- `add_task` (server.py:28-50): load, append a root task, save, return
`task.get_id()` (the new task's parent is the loaded root list). -/
def serverAddTask (store : Store) (d : String) : Option (String × Store) :=
  (loadRecord store).map fun tl =>
    let tl' := tl ++ [newTask d]
    (Task.get_id false tl' (newTask d) "", some (TaskList.save tl'))

/-- The mutation `add_subtask` performs through the resolved parent alias:
append a fresh pending child, and compute `subtask.get_id(parent_id)`
against the parent's updated subtasks list (server.py:76-85). -/
def addChildMut (parent_id d : String) : Task → String × Task := fun t =>
  let subs' := t.subtasks ++ [newTask d]
  (Task.get_id false subs' (newTask d) parent_id, Task.setSubtasks t subs')

/-- `add_subtask` (server.py:54-85): load, resolve the parent (raising
`ValueError` when it does not resolve), append a child to its subtasks
through the alias, save, return `subtask.get_id(parent_id)` computed against
the parent's updated subtasks list.  The `if parent_task.subtasks is None`
branch is unreachable (raw model below). -/
def serverAddSubtask (store : Store) (parent_id : String) (d : String) :
    Option (PyResult String × Store) :=
  (loadRecord store).map fun tl =>
    match (if parent_id = "" ∨ tl = [] then none
           else goModify (addChildMut parent_id d) tl (splitDots parent_id)) with
    | some r => (.ok r.1, some (TaskList.save r.2))
    | none => (.raised ("Task with ID " ++ parent_id ++ " not found"), store)

/-- `update_task_state` (server.py:89-112): load, update, save only on
success, return the success flag. -/
def serverUpdateTaskState (store : Store) (task_id : String) (st : TaskState) :
    Option (Bool × Store) :=
  (loadRecord store).map fun tl =>
    let r := TaskList.update_task_state tl task_id st
    if r.1 then (true, some (TaskList.save r.2)) else (false, store)

/-- `delete_task` (server.py:116-152): load, resolve, remove the first
value-equal element from the resolved node's sibling list, save, return
true; unresolvable identifiers return false without saving. -/
def serverDeleteTask (store : Store) (task_id : String) : Option (Bool × Store) :=
  (loadRecord store).map fun tl =>
    match (if task_id = "" ∨ tl = [] then none
           else goServerDelete tl (splitDots task_id)) with
    | some tl' => (true, some (TaskList.save tl'))
    | none => (false, store)

end MP

namespace Planning

/-- `Task` from `src/mcp_planning/task.py`: uuid string id, description,
state, flat subtasks list. -/
inductive PTask where
  | mk (id : String) (description : String) (state : MP.TaskState) (subtasks : List PTask)

def PTask.id : PTask → String
  | .mk i _ _ _ => i

def PTask.state : PTask → MP.TaskState
  | .mk _ _ s _ => s

def PTask.subtasks : PTask → List PTask
  | .mk _ _ _ ts => ts

/-- `Task.get_subtasks_by_state` (task.py:36-38): a list comprehension over
the direct subtasks only. -/
def PTask.get_subtasks_by_state (t : PTask) (st : MP.TaskState) : List PTask :=
  t.subtasks.filter (fun c => c.state == st)

/-- `TaskList.get_tasks_by_state` (task_list.py:37-39): a list comprehension
over the top-level tasks only. -/
def get_tasks_by_state (tasks : List PTask) (st : MP.TaskState) : List PTask :=
  tasks.filter (fun c => c.state == st)

/-- Concrete completed child used by the C8 counterexample. -/
def exChild : PTask := .mk "c1" "child" .completed []

/-- Concrete pending root whose only (completed) descendant is `exChild`. -/
def exRoot : PTask := .mk "r1" "root" .pending [exChild]

end Planning

namespace Raw

/-!
Raw model for the `subtasks: TaskList | None` field: `RTask` keeps the
`Option` that the pydantic declaration allows, `rPostInit` is
`Task.model_post_init` (models.py:36-39), and the operations below embed the
same code paths as the main model but track the `assert ... is not None`
sites: a returned `Except.error ()` is an `AssertionError` escaping (it is
not caught by the `except (ValueError, IndexError)` handlers).
-/

open MP (TaskState pyInt? joinDots splitDots JVal)

/-- `Task` with the field `subtasks: TaskList | None` kept as declared. -/
inductive RTask where
  | mk (description : String) (state : TaskState) (subtasks : Option (List RTask))

def RTask.description : RTask → String
  | .mk d _ _ => d

def RTask.state : RTask → TaskState
  | .mk _ s _ => s

def RTask.subtasks : RTask → Option (List RTask)
  | .mk _ _ o => o

/-- `Task.model_post_init`: replace a `None` subtasks field by a fresh empty
`TaskList`. -/
def rPostInit : RTask → RTask
  | .mk d s none => .mk d s (some [])
  | t => t

/-- `Task(description=d)` as built by `TaskList.add_task` and
`TaskList.load`: pydantic runs `model_post_init` right after construction. -/
def rNewTask (d : String) : RTask := rPostInit (.mk d .pending none)

/-- Every `subtasks` field in the tree is initialized (not `None`). -/
inductive RDefined : RTask → Prop
  | mk {d : String} {s : TaskState} {l : List RTask} :
      (∀ t ∈ l, RDefined t) → RDefined (.mk d s (some l))

/-- `TaskList.add_task` on the raw model: append a freshly constructed task. -/
def rAddRootTask (ts : List RTask) (d : String) : List RTask := ts ++ [rNewTask d]

/-- The mutation `add_subtask` performs on the resolved parent task,
including the `if parent_task.subtasks is None` repair branch
(server.py:76-79). -/
def rAddChild (t : RTask) (d : String) : RTask :=
  match t with
  | .mk dd s none => .mk dd s (some [rNewTask d])
  | .mk dd s (some l) => .mk dd s (some (l ++ [rNewTask d]))

/-- `task.state = state` on the raw model. -/
def rSetState (t : RTask) (st : TaskState) : RTask :=
  match t with
  | .mk d _ o => .mk d st o

/-- `Task.delete` on the raw model, including the `if self.subtasks is None:
return False` branch (models.py:68-70). -/
def rTaskDelete (t : RTask) (p : String) : Bool × RTask :=
  match t with
  | .mk d s none => (false, .mk d s none)
  | .mk d s (some l) =>
    match pyInt? p with
    | none => (false, .mk d s (some l))
    | some k =>
      if 0 ≤ k - 1 ∧ k - 1 < (l.length : Int) then
        (true, .mk d s (some (l.eraseIdx (k - 1).toNat)))
      else (false, .mk d s (some l))

/-- `TaskList.get_task_by_id` on the raw model, with the
`assert task.subtasks is not None` site (models.py:183) made explicit:
`.error ()` is the `AssertionError` escaping. -/
def rGetById : List RTask → List String → Except Unit (Option RTask)
  | _, [] => .ok none
  | ts, [p] =>
    match pyInt? p with
    | none => .ok none
    | some k =>
      if h : k - 1 < 0 ∨ (ts.length : Int) ≤ k - 1 then .ok none
      else
        let t := ts.get ⟨(k - 1).toNat, by omega⟩
        match t.subtasks with
        | none => .error ()
        | some _ => .ok (some t)
  | ts, p :: q :: rs =>
    match pyInt? p with
    | none => .ok none
    | some k =>
      if h : k - 1 < 0 ∨ (ts.length : Int) ≤ k - 1 then .ok none
      else
        let t := ts.get ⟨(k - 1).toNat, by omega⟩
        match t.subtasks with
        | none => .error ()
        | some subs =>
          if joinDots (q :: rs) = "" ∨ subs.isEmpty then .ok none
          else rGetById subs (q :: rs)
termination_by _ ss => ss.length

/-- Resolve-then-mutate on the raw model (functional counterpart of mutating
the alias returned by `get_task_by_id`), with the same assertion site as
`rGetById`. -/
def rModify {β : Type} (f : RTask → β × RTask) :
    List RTask → List String → Except Unit (Option (β × List RTask))
  | _, [] => .ok none
  | ts, [p] =>
    match pyInt? p with
    | none => .ok none
    | some k =>
      if h : k - 1 < 0 ∨ (ts.length : Int) ≤ k - 1 then .ok none
      else
        let t := ts.get ⟨(k - 1).toNat, by omega⟩
        match t.subtasks with
        | none => .error ()
        | some _ =>
          let r := f t
          .ok (some (r.1, ts.set (k - 1).toNat r.2))
  | ts, p :: q :: rs =>
    match pyInt? p with
    | none => .ok none
    | some k =>
      if h : k - 1 < 0 ∨ (ts.length : Int) ≤ k - 1 then .ok none
      else
        let t := ts.get ⟨(k - 1).toNat, by omega⟩
        match t.subtasks with
        | none => .error ()
        | some subs =>
          if joinDots (q :: rs) = "" ∨ subs.isEmpty then .ok none
          else
            match rModify f subs (q :: rs) with
            | .error e => .error e
            | .ok none => .ok none
            | .ok (some r) =>
              .ok (some (r.1, ts.set (k - 1).toNat (.mk t.description t.state (some r.2))))
termination_by _ ss => ss.length

/-- `TaskList.update_task_state` on the raw model. -/
def rUpdateTaskState (ts : List RTask) (task_id : String) (st : TaskState) :
    Except Unit (Bool × List RTask) :=
  match (if task_id = "" ∨ ts.isEmpty then Except.ok none
         else rModify (fun t => ((), rSetState t st)) ts (splitDots task_id)) with
  | .error e => .error e
  | .ok (some r) => .ok (true, r.2)
  | .ok none => .ok (false, ts)

/-- `TaskList.delete` on the raw model: the multi-segment branch resolves the
parent with `get_task_by_id` (so it can hit the assertion) and then runs
`Task.delete`. -/
def rDelete (ts : List RTask) (task_id : String) : Except Unit (Bool × List RTask) :=
  if task_id = "" ∨ ts.isEmpty then .ok (false, ts)
  else
    match splitDots task_id with
    | [] => .ok (false, ts)
    | [p] =>
      match pyInt? p with
      | none => .ok (false, ts)
      | some k =>
        if 0 ≤ k - 1 ∧ k - 1 < (ts.length : Int) then .ok (true, ts.eraseIdx (k - 1).toNat)
        else .ok (false, ts)
    | p :: q :: rs =>
      let initSegs := (p :: q :: rs).dropLast
      let lastSeg := (p :: q :: rs).getLast (by simp)
      if joinDots initSegs = "" then .ok (false, ts)
      else
        match rModify (fun t => rTaskDelete t lastSeg) ts initSegs with
        | .error e => .error e
        | .ok (some r) => .ok (r.1, r.2)
        | .ok none => .ok (false, ts)

/-- Whether `Task.to_markdown`'s traversal completes without tripping its
`assert self.subtasks is not None` (models.py:93) on this task or any
descendant. -/
def rMarkdownOk : RTask → Bool
  | .mk _ _ none => false
  | .mk _ _ (some l) => (l.attach.map (fun c => rMarkdownOk c.1)).all (fun b => b)
termination_by t => sizeOf t
decreasing_by
  have := List.sizeOf_lt_of_mem c.2
  simp only [RTask.mk.sizeOf_spec, Option.some.sizeOf_spec] at *
  omega

/-- The raw image of a main-model task: the same tree with every subtasks
list wrapped in `some`. -/
def rOfTask : MP.Task → RTask
  | .mk d s subs => .mk d s (some (subs.attach.map (fun c => rOfTask c.1)))
termination_by t => sizeOf t
decreasing_by
  have := List.sizeOf_lt_of_mem c.2
  simp only [MP.Task.mk.sizeOf_spec]
  omega

/-- `TaskList.load` on the raw model: the tasks `create_tasks` builds are the
raw images of the main model's parse (each is constructed by
`Task(...)`-plus-`model_post_init`, i.e. `rNewTask`, and then its subtasks
list — already `some` — is filled in place); the `assert` at models.py:279
inspects a task just built this way. -/
def rLoadTasks (j : JVal) : Option (List RTask) :=
  (MP.loadRecord (some j)).map (fun ts => ts.map rOfTask)

/-- Every task in the list satisfies `RDefined`. -/
def RDefinedL (ts : List RTask) : Prop := ∀ t ∈ ts, RDefined t

/-- Raw trees reachable through the system's operations: the empty initial
tree, a loaded record, and the add / add-subtask / update-state / delete
mutations. -/
inductive RReach : List RTask → Prop
  | empty : RReach []
  | load {j : JVal} {ts : List RTask} : rLoadTasks j = some ts → RReach ts
  | addRoot {ts : List RTask} (d : String) : RReach ts → RReach (rAddRootTask ts d)
  | addSub {ts : List RTask} {segs : List String} {d : String} {ts' : List RTask} :
      RReach ts → rModify (fun t => ((), rAddChild t d)) ts segs = .ok (some ((), ts')) →
      RReach ts'
  | update {ts : List RTask} {task_id : String} {st : MP.TaskState} {b : Bool}
      {ts' : List RTask} : RReach ts → rUpdateTaskState ts task_id st = .ok (b, ts') →
      RReach ts'
  | del {ts : List RTask} {task_id : String} {b : Bool} {ts' : List RTask} :
      RReach ts → rDelete ts task_id = .ok (b, ts') → RReach ts'

end Raw

namespace MP

theorem pyInt_empty : pyInt? "" = none := rfl

theorem segOk_ne_empty {s : String} {k : Nat} (h : segOk s k) : s ≠ "" := by
  rintro rfl
  have h1 : pyInt? "" = some (k : Int) := h.1
  rw [pyInt_empty] at h1
  exact Option.noConfusion h1

theorem joinDots_cons_ne_empty {q : String} (rs : List String) (hq : q ≠ "") :
    joinDots (q :: rs) ≠ "" := by
  cases rs with
  | nil => simpa [joinDots] using hq
  | cons r rs' =>
    intro h
    have hl := congrArg String.length h
    simp only [joinDots, String.length_append] at hl
    have h1 : String.length "." = 1 := rfl
    have h0 : String.length "" = 0 := rfl
    omega

theorem specNodeAtPath_nil : ∀ ks, specNodeAtPath ([] : List Task) ks = none := by
  intro ks
  match ks with
  | [] => rw [specNodeAtPath]
  | [k] =>
    rw [specNodeAtPath]
    rw [dif_neg (by rintro ⟨h1, h2⟩; simp only [List.length_nil] at h2; omega)]
  | k :: k2 :: ks =>
    rw [specNodeAtPath]
    rw [dif_neg (by rintro ⟨h1, h2⟩; simp only [List.length_nil] at h2; omega)]

/-- Characterization of identifier resolution: the segment-list worker
returns a node exactly when every segment parses as a positive integer and
the resulting 1-based path is in range at every level, in which case the
node is the one at that path. -/
theorem goResolve_iff : ∀ (ss : List String) (ts : List Task) (t : Task),
    goResolve ts ss = some t ↔
      ∃ ks, List.Forall₂ segOk ss ks ∧ specNodeAtPath ts ks = some t
  | [], ts, t => by
    simp only [goResolve]
    constructor
    · intro h; exact Option.noConfusion h
    · rintro ⟨ks, hf, hn⟩
      rcases List.forall₂_nil_left_iff.1 hf with rfl
      simp [specNodeAtPath] at hn
  | [p], ts, t => by
    cases hp : pyInt? p with
    | none =>
      constructor
      · intro h
        rw [goResolve] at h
        simp only [hp] at h
        exact Option.noConfusion h
      · rintro ⟨ks, hf, hn⟩
        rcases List.forall₂_cons_left_iff.1 hf with ⟨k, ks', hk, hks', rfl⟩
        have hk1 : pyInt? p = some (k : Int) := hk.1
        rw [hp] at hk1
        exact Option.noConfusion hk1
    | some k =>
      constructor
      · intro h
        rw [goResolve] at h
        simp only [hp] at h
        split at h
        · exact Option.noConfusion h
        · rename_i hout
          obtain rfl := Option.some.inj h
          refine ⟨[k.toNat],
            List.Forall₂.cons ⟨by rw [hp]; congr 1; omega, by omega⟩ List.Forall₂.nil, ?_⟩
          rw [specNodeAtPath]
          split
          · exact congrArg some (congrArg ts.get (Fin.ext (by simp only []; omega)))
          · rename_i hin
            exact absurd hin (by push_neg at hout ⊢; constructor <;> omega)
      · rintro ⟨ks, hf, hn⟩
        rcases List.forall₂_cons_left_iff.1 hf with ⟨k', ks', hk, hks', rfl⟩
        rcases List.forall₂_nil_left_iff.1 hks' with rfl
        have hk1 : pyInt? p = some (k' : Int) := hk.1
        rw [hp] at hk1
        obtain hkk := Option.some.inj hk1
        have hkpos : 1 ≤ k' := hk.2
        rw [specNodeAtPath] at hn
        split at hn
        · rename_i hin
          rw [goResolve]
          simp only [hp]
          rw [dif_neg (by omega)]
          rw [← hn]
          exact congrArg some (congrArg ts.get (Fin.ext (by simp only []; omega)))
        · exact Option.noConfusion hn
  | p :: q :: rs, ts, t => by
    cases hp : pyInt? p with
    | none =>
      constructor
      · intro h
        rw [goResolve] at h
        simp only [hp] at h
        exact Option.noConfusion h
      · rintro ⟨ks, hf, hn⟩
        rcases List.forall₂_cons_left_iff.1 hf with ⟨k, ks', hk, hks', rfl⟩
        have hk1 : pyInt? p = some (k : Int) := hk.1
        rw [hp] at hk1
        exact Option.noConfusion hk1
    | some k =>
      constructor
      · intro h
        rw [goResolve] at h
        simp only [hp] at h
        split at h
        · exact Option.noConfusion h
        · rename_i hout
          split at h
          · exact Option.noConfusion h
          · rename_i hstop
            obtain ⟨ks', hf', hn'⟩ := (goResolve_iff (q :: rs) _ t).1 h
            rcases List.forall₂_cons_left_iff.1 hf' with ⟨k2, ks'', hk2, hks'', rfl⟩
            refine ⟨k.toNat :: k2 :: ks'',
              List.Forall₂.cons ⟨by rw [hp]; congr 1; omega, by omega⟩ hf', ?_⟩
            rw [specNodeAtPath]
            split
            · rename_i hin
              have hget : ts.get ⟨k.toNat - 1, by omega⟩ = ts.get ⟨(k - 1).toNat, by omega⟩ :=
                congrArg ts.get (Fin.ext (by simp only []; omega))
              rw [hget]
              exact hn'
            · rename_i hin
              exact absurd hin (by push_neg at hout ⊢; constructor <;> omega)
      · rintro ⟨ks, hf, hn⟩
        rcases List.forall₂_cons_left_iff.1 hf with ⟨k', ks', hk, hks', rfl⟩
        rcases List.forall₂_cons_left_iff.1 hks' with ⟨k2, ks'', hk2, hks'', rfl⟩
        have hk1 : pyInt? p = some (k' : Int) := hk.1
        rw [hp] at hk1
        obtain hkk := Option.some.inj hk1
        have hkpos : 1 ≤ k' := hk.2
        rw [specNodeAtPath] at hn
        split at hn
        · rename_i hin
          have hget : ts.get ⟨k' - 1, by omega⟩ = ts.get ⟨(k - 1).toNat, by omega⟩ :=
            congrArg ts.get (Fin.ext (by simp only []; omega))
          rw [hget] at hn
          have hne : ¬(joinDots (q :: rs) = "" ∨
              (ts.get ⟨(k - 1).toNat, by omega⟩).subtasks = []) := by
            push_neg
            refine ⟨joinDots_cons_ne_empty rs (segOk_ne_empty hk2), ?_⟩
            intro hempty
            rw [hempty] at hn
            rw [specNodeAtPath_nil] at hn
            exact Option.noConfusion hn
          rw [goResolve]
          simp only [hp]
          rw [dif_neg (by omega)]
          simp only [if_neg hne]
          exact (goResolve_iff (q :: rs) (ts.get ⟨(k - 1).toNat, by omega⟩).subtasks t).2
            ⟨k2 :: ks'', List.Forall₂.cons hk2 hks'', hn⟩
        · exact Option.noConfusion hn
termination_by ss _ _ => ss.length

/-- Every node that resolution returns lives in the tree of one of the
roots. -/
theorem goResolve_occurs : ∀ (ss : List String) (ts : List Task) (t : Task),
    goResolve ts ss = some t → ∃ r ∈ ts, OccursIn t r
  | [], ts, t => by
    intro h
    rw [goResolve] at h
    exact Option.noConfusion h
  | [p], ts, t => by
    intro h
    rw [goResolve] at h
    cases hp : pyInt? p with
    | none => simp only [hp] at h; exact Option.noConfusion h
    | some k =>
      simp only [hp] at h
      split at h
      · exact Option.noConfusion h
      · obtain rfl := Option.some.inj h
        exact ⟨_, List.get_mem _ _ _, OccursIn.refl _⟩
  | p :: q :: rs, ts, t => by
    intro h
    rw [goResolve] at h
    cases hp : pyInt? p with
    | none => simp only [hp] at h; exact Option.noConfusion h
    | some k =>
      simp only [hp] at h
      split at h
      · exact Option.noConfusion h
      · split at h
        · exact Option.noConfusion h
        · obtain ⟨c, hc, hocc⟩ := goResolve_occurs (q :: rs) _ t h
          exact ⟨_, List.get_mem _ _ _, OccursIn.child hc hocc⟩
termination_by ss _ _ => ss.length

/-- The resolve-then-mutate worker succeeds exactly when plain resolution
succeeds (the code's mutations are applied through the alias returned by a
successful `get_task_by_id`). -/
theorem goModify_isSome {β : Type} (f : Task → β × Task) :
    ∀ (ss : List String) (ts : List Task),
      (goModify f ts ss).isSome = (goResolve ts ss).isSome
  | [], ts => by rw [goModify, goResolve]; rfl
  | [p], ts => by
    rw [goModify, goResolve]
    cases hp : pyInt? p with
    | none => rfl
    | some k =>
      simp only [hp]
      by_cases hc : k - 1 < 0 ∨ (ts.length : Int) ≤ k - 1
      · rw [dif_pos hc, dif_pos hc]; rfl
      · rw [dif_neg hc, dif_neg hc]; rfl
  | p :: q :: rs, ts => by
    rw [goModify, goResolve]
    cases hp : pyInt? p with
    | none => rfl
    | some k =>
      simp only [hp]
      by_cases hc : k - 1 < 0 ∨ (ts.length : Int) ≤ k - 1
      · rw [dif_pos hc, dif_pos hc]; rfl
      · rw [dif_neg hc, dif_neg hc]
        by_cases hc2 : joinDots (q :: rs) = "" ∨
            (ts.get ⟨(k - 1).toNat, by omega⟩).subtasks = []
        · rw [if_pos hc2, if_pos hc2]; rfl
        · rw [if_neg hc2, if_neg hc2]
          simp only [Option.isSome_map']
          exact goModify_isSome f (q :: rs) _
termination_by ss _ => ss.length

/-- The server-delete worker also succeeds exactly when resolution does: the
resolved node is an element of its sibling list, so the `task in
parent.tasks` membership test always passes. -/
theorem goServerDelete_isSome :
    ∀ (ss : List String) (ts : List Task),
      (goServerDelete ts ss).isSome = (goResolve ts ss).isSome
  | [], ts => by rw [goServerDelete, goResolve]; rfl
  | [p], ts => by
    rw [goServerDelete, goResolve]
    cases hp : pyInt? p with
    | none => rfl
    | some k =>
      simp only [hp]
      by_cases hc : k - 1 < 0 ∨ (ts.length : Int) ≤ k - 1
      · rw [dif_pos hc, dif_pos hc]; rfl
      · rw [dif_neg hc, dif_neg hc]
        rw [if_pos (List.elem_iff.2 (List.get_mem _ _ _))]; rfl
  | p :: q :: rs, ts => by
    rw [goServerDelete, goResolve]
    cases hp : pyInt? p with
    | none => rfl
    | some k =>
      simp only [hp]
      by_cases hc : k - 1 < 0 ∨ (ts.length : Int) ≤ k - 1
      · rw [dif_pos hc, dif_pos hc]; rfl
      · rw [dif_neg hc, dif_neg hc]
        by_cases hc2 : joinDots (q :: rs) = "" ∨
            (ts.get ⟨(k - 1).toNat, by omega⟩).subtasks = []
        · rw [if_pos hc2, if_pos hc2]; rfl
        · rw [if_neg hc2, if_neg hc2]
          simp only [Option.isSome_map']
          exact goServerDelete_isSome (q :: rs) _
termination_by ss _ => ss.length

theorem ofValue_value (st : TaskState) : TaskState.ofValue? st.value = some st := by
  cases st <;> rfl

/-- Unfolded form of `Task.to_dict` with the nested map made explicit. -/
theorem to_dict_eq (d : String) (st : TaskState) (subs : List Task) :
    Task.to_dict (.mk d st subs) =
      .jobj [("description", .jstr d), ("state", .jstr st.value),
             ("subtasks", .jobj [("tasks", .jarr (subs.map Task.to_dict))])] := by
  rw [Task.to_dict, to_dictList_eq_map]

theorem parseTasks_map (l : List Task)
    (ih : ∀ t ∈ l, parseTask (Task.to_dict t) = some t) :
    parseTasks (l.map Task.to_dict) = some l := by
  induction l with
  | nil => rw [List.map_nil, parseTasks]
  | cons x xs ihl =>
    rw [List.map_cons, parseTasks, ih x (by simp), ihl (fun t ht => ih t (by simp [ht]))]

/-- Parsing inverts serialization on a single task. -/
theorem parseTask_to_dict : ∀ t, parseTask (Task.to_dict t) = some t := by
  intro t
  induction t using Task.strongRec with
  | h d st subs ih =>
    rw [to_dict_eq, parseTask]
    have e1 : jGet [("description", JVal.jstr d), ("state", JVal.jstr st.value),
        ("subtasks", JVal.jobj [("tasks", JVal.jarr (subs.map Task.to_dict))])] "description"
        = some (JVal.jstr d) := by simp [jGet, List.find?]
    have e2 : jGet [("description", JVal.jstr d), ("state", JVal.jstr st.value),
        ("subtasks", JVal.jobj [("tasks", JVal.jarr (subs.map Task.to_dict))])] "state"
        = some (JVal.jstr st.value) := by simp [jGet, List.find?]
    have e3 : subtasksItems [("description", JVal.jstr d), ("state", JVal.jstr st.value),
        ("subtasks", JVal.jobj [("tasks", JVal.jarr (subs.map Task.to_dict))])]
        = (if subs.isEmpty = true then some none else some (some (subs.map Task.to_dict))) := by
      cases subs with
      | nil => simp [subtasksItems, jGet, List.find?, jTruthy]
      | cons x xs => simp [subtasksItems, jGet, List.find?, jTruthy]
    have e4 : parseTasks (subs.map Task.to_dict) = some subs := parseTasks_map subs ih
    split
    · rename_i d' sv' h1 h2
      rw [e1] at h1
      rw [e2] at h2
      obtain rfl : d = d' := JVal.jstr.inj (Option.some.inj h1)
      obtain rfl : st.value = sv' := JVal.jstr.inj (Option.some.inj h2)
      rw [ofValue_value]
      split
      · rename_i st' hst'
        obtain rfl : st = st' := Option.some.inj hst'
        split
        · rename_i items hitems
          rw [e3] at hitems
          by_cases hemp : subs.isEmpty = true
          · rw [if_pos hemp] at hitems
            exact Option.noConfusion (Option.some.inj hitems)
          · rw [if_neg hemp] at hitems
            obtain rfl := Option.some.inj (Option.some.inj hitems)
            rw [e4]
            rfl
        · rename_i hnone
          rw [e3] at hnone
          by_cases hemp : subs.isEmpty = true
          · obtain rfl := List.isEmpty_iff.1 hemp
            rfl
          · rw [if_neg hemp] at hnone
            exact Option.noConfusion (Option.some.inj hnone)
        · rename_i hcrash
          rw [e3] at hcrash
          by_cases hemp : subs.isEmpty = true
          · rw [if_pos hemp] at hcrash
            exact Option.noConfusion hcrash
          · rw [if_neg hemp] at hcrash
            exact Option.noConfusion hcrash
      · rename_i hst'
        exact Option.noConfusion hst'
    · rename_i hcontra
      exact absurd e2 (fun h => hcontra d st.value e1 h)

/-- Loading the saved record reproduces the tree. -/
theorem loadRecord_save (ts : List Task) : loadRecord (some (TaskList.save ts)) = some ts := by
  rw [TaskList.save, TaskList.to_dict, to_dictList_eq_map, loadRecord]
  simp only [jGet, List.find?]
  exact parseTasks_map ts (fun t _ => parseTask_to_dict t)

theorem strJoin_append (a b : List String) : strJoin (a ++ b) = strJoin a ++ strJoin b := by
  induction a with
  | nil =>
    rw [List.nil_append, strJoin]
    exact (String.empty_append _).symm
  | cons x xs ih =>
    rw [List.cons_append, strJoin, strJoin, ih, String.append_assoc]

theorem strJoin_join : ∀ L : List (List String), strJoin L.flatten = strJoin (L.map strJoin)
  | [] => rfl
  | l :: L => by
    rw [List.flatten_cons, strJoin_append, List.map_cons, strJoin, strJoin_join L]

mutual

theorem to_markdown_eq_lines :
    ∀ (siblings : List Task) (t : Task) (level : Nat) (pid : String),
    Task.to_markdown siblings t level pid =
      strJoin ((dfsTask siblings t level pid).map (fun e => lineOf e.1 e.2.1 e.2.2))
  | siblings, .mk d st subs, level, pid => by
    rw [Task.to_markdown, dfsTask]
    simp only [List.map_cons, strJoin]
    congr 1
    exact to_markdownList_eq_lines subs subs (level + 1) _

theorem to_markdownList_eq_lines :
    ∀ (siblings l : List Task) (level : Nat) (pid : String),
    Task.to_markdownList siblings l level pid =
      strJoin ((dfsList siblings l level pid).map (fun e => lineOf e.1 e.2.1 e.2.2))
  | siblings, [], level, pid => by rw [Task.to_markdownList, dfsList]; rfl
  | siblings, t :: rest, level, pid => by
    rw [Task.to_markdownList, dfsList, List.map_append, strJoin_append,
      to_markdown_eq_lines siblings t level pid,
      to_markdownList_eq_lines siblings rest level pid]

end

theorem TaskList_to_markdown_eq (tasks : List Task) :
    TaskList.to_markdown tasks = specMarkdownRender tasks := by
  rw [TaskList.to_markdown, specMarkdownRender, dfsForest]
  congr 1
  exact to_markdownList_eq_lines tasks tasks 0 ""

end MP


namespace Raw

open MP (pyInt? splitDots joinDots JVal)

theorem rDefined_newTask (d : String) : RDefined (rNewTask d) :=
  RDefined.mk (by intro t ht; exact absurd ht (List.not_mem_nil t))

theorem RDefined.inv {d : String} {s : MP.TaskState} {o : Option (List RTask)}
    (h : RDefined (.mk d s o)) : ∃ l, o = some l ∧ ∀ t ∈ l, RDefined t := by
  cases h with
  | mk hl => exact ⟨_, rfl, hl⟩

theorem rAddRootTask_defined {ts : List RTask} (d : String) (h : RDefinedL ts) :
    RDefinedL (rAddRootTask ts d) := by
  intro t ht
  rw [rAddRootTask] at ht
  rcases List.mem_append.1 ht with h1 | h1
  · exact h t h1
  · rcases List.mem_singleton.1 h1 with rfl
    exact rDefined_newTask d

theorem rAddChild_defined {t : RTask} (d : String) (h : RDefined t) :
    RDefined (rAddChild t d) := by
  cases t with
  | mk dd s o =>
    obtain ⟨l, rfl, hl⟩ := h.inv
    rw [rAddChild]
    refine RDefined.mk ?_
    intro u hu
    rcases List.mem_append.1 hu with h1 | h1
    · exact hl u h1
    · rcases List.mem_singleton.1 h1 with rfl
      exact rDefined_newTask d

theorem rSetState_defined {t : RTask} (st : MP.TaskState) (h : RDefined t) :
    RDefined (rSetState t st) := by
  cases t with
  | mk dd s o =>
    obtain ⟨l, rfl, hl⟩ := h.inv
    exact RDefined.mk hl

theorem RDefined.subtasks_some {t : RTask} (h : RDefined t) :
    ∃ l, t.subtasks = some l ∧ ∀ u ∈ l, RDefined u := by
  cases h with
  | mk hl => exact ⟨_, rfl, hl⟩

theorem rTaskDelete_defined {t : RTask} (p : String) (h : RDefined t) :
    RDefined (rTaskDelete t p).2 := by
  cases t with
  | mk dd s o =>
    obtain ⟨l, rfl, hl⟩ := h.inv
    rw [rTaskDelete]
    split
    · exact RDefined.mk hl
    · split
      · refine RDefined.mk ?_
        intro u hu
        exact hl u ((List.eraseIdx_sublist l _).subset hu)
      · exact RDefined.mk hl

theorem rModify_ok {β : Type} (f : RTask → β × RTask)
    (hf : ∀ t, RDefined t → RDefined (f t).2) :
    ∀ (ss : List String) (ts : List RTask), RDefinedL ts →
      (∀ e, rModify f ts ss ≠ .error e) ∧
      (∀ b ts', rModify f ts ss = .ok (some (b, ts')) → RDefinedL ts')
  | [], ts => by
    intro hts
    rw [rModify]
    exact ⟨fun e h => Except.noConfusion h, fun b ts' h => Option.noConfusion (Except.ok.inj h)⟩
  | [p], ts => by
    intro hts
    rw [rModify]
    split
    · exact ⟨fun e h => Except.noConfusion h, fun b ts' h => Option.noConfusion (Except.ok.inj h)⟩
    · rename_i k hk
      split
      · exact ⟨fun e h => Except.noConfusion h,
          fun b ts' h => Option.noConfusion (Except.ok.inj h)⟩
      · rename_i hin
        obtain ⟨l, hl, hdef⟩ := (hts _ (List.get_mem ts (k - 1).toNat (by omega))).subtasks_some
        simp only [hl]
        refine ⟨fun e h => Except.noConfusion h, ?_⟩
        intro b ts' h
        have h2 : ts.set (k - 1).toNat (f (ts.get ⟨(k - 1).toNat, by omega⟩)).2 = ts' :=
          congrArg Prod.snd (Option.some.inj (Except.ok.inj h))
        rw [← h2]
        intro u hu
        rcases List.mem_or_eq_of_mem_set hu with h3 | h3
        · exact hts u h3
        · subst h3
          exact hf _ (hts _ (List.get_mem ts (k - 1).toNat (by omega)))
  | p :: q :: rs, ts => by
    intro hts
    rw [rModify]
    split
    · exact ⟨fun e h => Except.noConfusion h, fun b ts' h => Option.noConfusion (Except.ok.inj h)⟩
    · rename_i k hk
      split
      · exact ⟨fun e h => Except.noConfusion h,
          fun b ts' h => Option.noConfusion (Except.ok.inj h)⟩
      · rename_i hin
        obtain ⟨l, hl, hdef⟩ := (hts _ (List.get_mem ts (k - 1).toNat (by omega))).subtasks_some
        simp only [hl]
        split
        · exact ⟨fun e h => Except.noConfusion h,
            fun b ts' h => Option.noConfusion (Except.ok.inj h)⟩
        · have hrec := rModify_ok f hf (q :: rs) l hdef
          cases hm : rModify f l (q :: rs) with
          | error e => exact absurd hm (hrec.1 e)
          | ok o =>
            cases o with
            | none =>
              simp only [hm]
              exact ⟨fun e h => Except.noConfusion h,
                fun b ts' h => Option.noConfusion (Except.ok.inj h)⟩
            | some r =>
              simp only [hm]
              refine ⟨fun e h => Except.noConfusion h, ?_⟩
              intro b ts' h
              have h2 : ts.set (k - 1).toNat
                  (RTask.mk (ts.get ⟨(k - 1).toNat, by omega⟩).description
                    (ts.get ⟨(k - 1).toNat, by omega⟩).state (some r.2)) = ts' :=
                congrArg Prod.snd (Option.some.inj (Except.ok.inj h))
              rw [← h2]
              intro u hu
              rcases List.mem_or_eq_of_mem_set hu with h3 | h3
              · exact hts u h3
              · subst h3
                exact RDefined.mk (hrec.2 r.1 r.2 (by rw [hm]))
termination_by ss _ => ss.length

theorem rGetById_ok : ∀ (ss : List String) (ts : List RTask), RDefinedL ts →
    ∀ e, rGetById ts ss ≠ .error e
  | [], ts => by
    intro hts e h
    rw [rGetById] at h
    exact Except.noConfusion h
  | [p], ts => by
    intro hts e h
    rw [rGetById] at h
    split at h
    · exact Except.noConfusion h
    · rename_i k hk
      split at h
      · exact Except.noConfusion h
      · rename_i hin
        obtain ⟨l, hl, hdef⟩ := (hts _ (List.get_mem ts (k - 1).toNat (by omega))).subtasks_some
        simp only [hl] at h
        exact Except.noConfusion h
  | p :: q :: rs, ts => by
    intro hts e h
    rw [rGetById] at h
    split at h
    · exact Except.noConfusion h
    · rename_i k hk
      split at h
      · exact Except.noConfusion h
      · rename_i hin
        obtain ⟨l, hl, hdef⟩ := (hts _ (List.get_mem ts (k - 1).toNat (by omega))).subtasks_some
        simp only [hl] at h
        split at h
        · exact Except.noConfusion h
        · exact rGetById_ok (q :: rs) l hdef e h
termination_by ss _ => ss.length

theorem rUpdateTaskState_ok {ts : List RTask} {task_id : String} {st : MP.TaskState}
    (h : RDefinedL ts) :
    (∀ e, rUpdateTaskState ts task_id st ≠ .error e) ∧
    (∀ b ts', rUpdateTaskState ts task_id st = .ok (b, ts') → RDefinedL ts') := by
  rw [rUpdateTaskState]
  have hm := rModify_ok (fun t => ((), rSetState t st))
    (fun t ht => rSetState_defined st ht) (splitDots task_id) ts h
  by_cases hguard : task_id = "" ∨ ts.isEmpty = true
  · rw [if_pos hguard]
    constructor
    · intro e hcontra
      exact Except.noConfusion hcontra
    · intro b ts' heq
      have h2 : ts = ts' := congrArg Prod.snd (Except.ok.inj heq)
      rw [← h2]
      exact h
  · rw [if_neg hguard]
    cases hr : rModify (fun t => ((), rSetState t st)) ts (splitDots task_id) with
    | error e => exact absurd hr (hm.1 e)
    | ok o =>
      cases o with
      | none =>
        refine ⟨fun e hcontra => Except.noConfusion hcontra, ?_⟩
        intro b ts' heq
        have h2 : ts = ts' := congrArg Prod.snd (Except.ok.inj heq)
        rw [← h2]
        exact h
      | some r =>
        refine ⟨fun e hcontra => Except.noConfusion hcontra, ?_⟩
        intro b ts' heq
        have h2 : r.2 = ts' := congrArg Prod.snd (Except.ok.inj heq)
        rw [← h2]
        exact hm.2 r.1 r.2 hr

theorem rDelete_ok {ts : List RTask} {task_id : String} (h : RDefinedL ts) :
    (∀ e, rDelete ts task_id ≠ .error e) ∧
    (∀ b ts', rDelete ts task_id = .ok (b, ts') → RDefinedL ts') := by
  rw [rDelete]
  by_cases hguard : task_id = "" ∨ ts.isEmpty = true
  · rw [if_pos hguard]
    refine ⟨fun e hc => Except.noConfusion hc, ?_⟩
    intro b ts' heq
    have h2 : ts = ts' := congrArg Prod.snd (Except.ok.inj heq)
    rw [← h2]
    exact h
  · rw [if_neg hguard]
    split
    · refine ⟨fun e hc => Except.noConfusion hc, ?_⟩
      intro b ts' heq
      have h2 : ts = ts' := congrArg Prod.snd (Except.ok.inj heq)
      rw [← h2]
      exact h
    · rename_i p
      split
      · refine ⟨fun e hc => Except.noConfusion hc, ?_⟩
        intro b ts' heq
        have h2 : ts = ts' := congrArg Prod.snd (Except.ok.inj heq)
        rw [← h2]
        exact h
      · rename_i k hk
        split
        · refine ⟨fun e hc => Except.noConfusion hc, ?_⟩
          intro b ts' heq
          have h2 : ts.eraseIdx (k - 1).toNat = ts' := congrArg Prod.snd (Except.ok.inj heq)
          rw [← h2]
          intro u hu
          exact h u ((List.eraseIdx_sublist ts _).subset hu)
        · refine ⟨fun e hc => Except.noConfusion hc, ?_⟩
          intro b ts' heq
          have h2 : ts = ts' := congrArg Prod.snd (Except.ok.inj heq)
          rw [← h2]
          exact h
    · rename_i p q rs hsegs
      have hm := rModify_ok (fun t => rTaskDelete t ((p :: q :: rs).getLast (by simp)))
        (fun t ht => rTaskDelete_defined _ ht) ((p :: q :: rs).dropLast) ts h
      by_cases hj : joinDots ((p :: q :: rs).dropLast) = ""
      · simp only [if_pos hj]
        refine ⟨fun e hc => Except.noConfusion hc, ?_⟩
        intro b ts' heq
        have h2 : ts = ts' := congrArg Prod.snd (Except.ok.inj heq)
        rw [← h2]
        exact h
      · simp only [if_neg hj]
        cases hr : rModify (fun t => rTaskDelete t ((p :: q :: rs).getLast (by simp))) ts
            ((p :: q :: rs).dropLast) with
        | error e => exact absurd hr (hm.1 e)
        | ok o =>
          cases o with
          | none =>
            refine ⟨fun e hc => Except.noConfusion hc, ?_⟩
            intro b ts' heq
            have h2 : ts = ts' := congrArg Prod.snd (Except.ok.inj heq)
            rw [← h2]
            exact h
          | some r =>
            refine ⟨fun e hc => Except.noConfusion hc, ?_⟩
            intro b ts' heq
            have h2 : r.2 = ts' := congrArg Prod.snd (Except.ok.inj heq)
            rw [← h2]
            exact hm.2 r.1 r.2 hr

theorem rMarkdownOk_defined {t : RTask} (h : RDefined t) : rMarkdownOk t = true := by
  induction h with
  | mk hl ih =>
    rw [rMarkdownOk]
    rw [List.all_eq_true]
    intro b hb
    rcases List.mem_map.1 hb with ⟨c, hc, rfl⟩
    exact ih c.1 c.2

theorem rOfTask_defined : ∀ t : MP.Task, RDefined (rOfTask t) := by
  intro t
  induction t using MP.Task.strongRec with
  | h d s ts ih =>
    rw [rOfTask]
    refine RDefined.mk ?_
    intro u hu
    rcases List.mem_map.1 hu with ⟨c, hc, rfl⟩
    exact ih c.1 c.2

theorem rLoadTasks_defined {j : JVal} {ts : List RTask}
    (h : rLoadTasks j = some ts) : RDefinedL ts := by
  rw [rLoadTasks] at h
  obtain ⟨ts0, hts0, rfl⟩ := Option.map_eq_some'.1 h
  intro u hu
  rcases List.mem_map.1 hu with ⟨c, hc, rfl⟩
  exact rOfTask_defined c

/-- Every reachable raw tree has all its subtasks fields initialized. -/
theorem rReach_defined {ts : List RTask} (h : RReach ts) : RDefinedL ts := by
  induction h with
  | empty => intro t ht; exact absurd ht (List.not_mem_nil t)
  | load hl => exact rLoadTasks_defined hl
  | addRoot d _ ih => exact rAddRootTask_defined d ih
  | addSub _ hmod ih =>
    exact (rModify_ok _ (fun t ht => rAddChild_defined _ ht) _ _ ih).2 _ _ hmod
  | update _ hu ih => exact (rUpdateTaskState_ok ih).2 _ _ hu
  | del _ hd ih => exact (rDelete_ok ih).2 _ _ hd

end Raw


namespace MP

theorem get_task_by_id_some {ts : List Task} {task_id : String} {t : Task}
    (h : TaskList.get_task_by_id ts task_id = some t) :
    ¬(task_id = "" ∨ ts = []) ∧ goResolve ts (splitDots task_id) = some t := by
  rw [TaskList.get_task_by_id] at h
  by_cases hg : task_id = "" ∨ ts = []
  · rw [if_pos hg] at h
    exact absurd h (by simp)
  · rw [if_neg hg] at h
    exact ⟨hg, h⟩

theorem goModify_some_of_resolve {β : Type} (f : Task → β × Task) {ts : List Task}
    {ss : List String} {t : Task} (h : goResolve ts ss = some t) :
    ∃ r, goModify f ts ss = some r := by
  have hiso := goModify_isSome f ss ts
  rw [h] at hiso
  exact Option.isSome_iff_exists.1 hiso

theorem goServerDelete_some_of_resolve {ts : List Task} {ss : List String} {t : Task}
    (h : goResolve ts ss = some t) : ∃ ts', goServerDelete ts ss = some ts' := by
  have hiso := goServerDelete_isSome ss ts
  rw [h] at hiso
  exact Option.isSome_iff_exists.1 hiso

theorem goModify_none_of_resolve_none {β : Type} (f : Task → β × Task) {ts : List Task}
    {ss : List String} (h : goResolve ts ss = none) : goModify f ts ss = none := by
  have hiso := goModify_isSome f ss ts
  rw [h] at hiso
  exact Option.not_isSome_iff_eq_none.1 (by rw [hiso]; exact Bool.false_ne_true ∘ id)

end MP


/-- C1: failing-input evaluation. A tree with two root tasks of equal
description, state and (empty) subtasks renders both lines with identifier
"1": `Task.get_id` locates the first sibling that compares equal by Python
`==` (value equality, `Task.__eq__`), so the second root's line does not
show its own position "2" as the claim requires, and no line shows "2" at
all. -/
theorem C1_duplicate_sibling_render_eval :
    MP.TaskList.to_markdown [MP.Task.mk "a" .pending [], MP.Task.mk "a" .pending []] =
      "# Task List\n\n- [ ] 1: a\n- [ ] 1: a\n" ∧
    MP.Task.get_id false [MP.Task.mk "a" .pending [], MP.Task.mk "a" .pending []]
      (MP.Task.mk "a" .pending []) "" = "1" := by
  constructor
  · decide
  · decide

/-- C2: loading after saving yields an equal tree — same descriptions,
states and children order at every depth.  Equality of the embedded trees
is exactly the code's `TaskList.__eq__`/`Task.__eq__` (see `Task.beq_iff`),
which ignores the parent back-references, so object identity is not (and
cannot be) required. -/
theorem C2_save_load_roundtrip (ts : List MP.Task) :
    MP.loadRecord (some (MP.TaskList.save ts)) = some ts :=
  MP.loadRecord_save ts

/-- C3: failing-input evaluation. On a store holding one root task "a"
(pending, no subtasks), `add_task("a")` appends the new pending root at
position 2 — the saved record holds both tasks — yet returns "1", the
position of the first value-equal sibling, not the new task's own 1-based
root position "2" that the claim requires. -/
theorem C3_duplicate_add_returns_wrong_id :
    MP.serverAddTask (some (MP.TaskList.save [MP.newTask "a"])) "a" =
      some ("1", some (MP.TaskList.save [MP.newTask "a", MP.newTask "a"])) := by
  rw [MP.serverAddTask, MP.loadRecord_save]
  rfl

/-- C9 counterexample: the empty tree renders as the header line followed by
a blank line (`"# Task List\n\n"`, models.py:290), not as just the header
line `"# Task List\n"` that the claim states. -/
theorem C9_empty_render_counterexample :
    MP.TaskList.to_markdown ([] : List MP.Task) = "# Task List\n\n" ∧
    "# Task List\n\n" ≠ "# Task List\n" := by
  constructor
  · decide
  · decide

/-- C9 amended: the rendering is the header line and a blank line
(`"# Task List\n\n"`) followed by exactly one line per node in depth-first
order, each line being two spaces times the node's depth, then "- [", then
"x" exactly when the node's state is completed and a space otherwise, then
"] ", the node's printed identifier, ": " and its description; an empty tree
renders as the header line followed by the blank line. -/
theorem C9_markdown_format (tasks : List MP.Task) :
    MP.TaskList.to_markdown tasks = MP.specMarkdownRender tasks ∧
    MP.TaskList.to_markdown ([] : List MP.Task) = "# Task List\n\n" :=
  ⟨MP.TaskList_to_markdown_eq tasks, by decide⟩

/-- C8 counterexample: a completed child below a pending root is not in the
result of `TaskList.get_tasks_by_state` for the completed filter — the
filter never traverses into subtasks, while the claim requires every
matching descendant to be returned. -/
theorem C8_filter_skips_descendants_counterexample :
    Planning.get_tasks_by_state [Planning.exRoot] .completed = [] ∧
    Planning.exChild.state = .completed ∧
    Planning.exRoot.subtasks = [Planning.exChild] :=
  ⟨rfl, rfl, rfl⟩

/-- C8 amended: the state filters are flat, not depth-first: they evaluate
only the receiver's direct tasks (`TaskList.get_tasks_by_state`) or direct
subtasks (`Task.get_subtasks_by_state`) against their own state, returning
exactly the direct members whose state equals the filter, in insertion
order, each node unchanged (keeping its stored id and subtasks); matching
descendants of non-matching members are not returned. -/
theorem C8_filter_direct_children_only (tasks : List Planning.PTask)
    (p t : Planning.PTask) (st : MP.TaskState) :
    ((Planning.get_tasks_by_state tasks st).Sublist tasks ∧
      (t ∈ Planning.get_tasks_by_state tasks st ↔ t ∈ tasks ∧ t.state = st)) ∧
    ((Planning.PTask.get_subtasks_by_state p st).Sublist p.subtasks ∧
      (t ∈ Planning.PTask.get_subtasks_by_state p st ↔
        t ∈ p.subtasks ∧ t.state = st)) := by
  constructor
  · constructor
    · exact List.filter_sublist tasks
    · rw [Planning.get_tasks_by_state]
      simp [List.mem_filter]
  · constructor
    · exact List.filter_sublist p.subtasks
    · rw [Planning.PTask.get_subtasks_by_state]
      simp [List.mem_filter]


/-- C4: with roots [A, B, C], delete("2") returns true and removes B together
with its entire subtree (the roots become [A, C]); identifier "2" afterwards
resolves to the node that was C; and every subsequent successful lookup
returns a node of A's or C's tree — B's excised subtree never reappears in a
lookup, and rendering is a function of the remaining tree [A, C].  No
renumbering step exists: the shift is emergent from recomputing identifiers
from position. -/
theorem C4_delete_renumbers (A B C : MP.Task) :
    MP.TaskList.delete [A, B, C] "2" = (true, [A, C]) ∧
    MP.TaskList.get_task_by_id [A, C] "2" = some C ∧
    (∀ task_id t, MP.TaskList.get_task_by_id [A, C] task_id = some t →
      MP.OccursIn t A ∨ MP.OccursIn t C) := by
  refine ⟨rfl, rfl, ?_⟩
  intro task_id t h
  obtain ⟨-, hres⟩ := MP.get_task_by_id_some h
  obtain ⟨r, hr, hocc⟩ := MP.goResolve_occurs _ _ _ hres
  rcases List.mem_cons.1 hr with rfl | hr2
  · exact Or.inl hocc
  · rcases List.mem_singleton.1 hr2 with rfl
    exact Or.inr hocc

/-- C7: full characterization of resolution.  `get_task_by_id` returns a
node exactly when the identifier is non-empty and every dot-separated
segment parses as a positive integer (`segOk`, Python `int` semantics) whose
1-based path is in range at every level; the node is then the unique one at
that path (`specNodeAtPath`, modelled from the spec).  In every other case —
empty identifier, unparsable segment, segment ≤ 0 or above the sibling count
at its level — the result is `none`; no exception escapes: the `ValueError`
of `int` is caught and encoded in `pyInt?`, and the embedding is total. -/
theorem C7_resolution_characterization (ts : List MP.Task) (task_id : String) (t : MP.Task) :
    MP.TaskList.get_task_by_id ts task_id = some t ↔
      (task_id ≠ "" ∧ ∃ ks : List Nat,
        List.Forall₂ MP.segOk (MP.splitDots task_id) ks ∧
        MP.specNodeAtPath ts ks = some t) := by
  rw [MP.TaskList.get_task_by_id]
  by_cases hguard : task_id = "" ∨ ts = []
  · rw [if_pos hguard]
    constructor
    · intro h
      exact absurd h (by simp)
    · rintro ⟨hne, ks, hf, hn⟩
      rcases hguard with h | h
      · exact absurd h hne
      · subst h
        rw [MP.specNodeAtPath_nil] at hn
        exact Option.noConfusion hn
  · rw [if_neg hguard]
    push_neg at hguard
    rw [MP.goResolve_iff]
    constructor
    · rintro ⟨ks, hf, hn⟩
      exact ⟨hguard.1, ks, hf, hn⟩
    · rintro ⟨hne, ks, hf, hn⟩
      exact ⟨ks, hf, hn⟩


/-- C5: write-through persistence.  For each mutation tool, on a loadable
store: add appends and the returned store holds the serialization of the
updated tree; add-subtask on a resolvable parent saves the mutated tree and
returns ok; update-state on a resolvable identifier saves the updated tree
and returns true; delete on a resolvable identifier saves the pruned tree
and returns true.  The embedding returns the post-save store together with
the result, so the record is durable before the result is released. -/
theorem C5_write_through :
    (∀ (store : MP.Store) (ts : List MP.Task) (d : String),
      MP.loadRecord store = some ts →
      MP.serverAddTask store d =
        some (MP.Task.get_id false (ts ++ [MP.newTask d]) (MP.newTask d) "",
          some (MP.TaskList.save (ts ++ [MP.newTask d])))) ∧
    (∀ (store : MP.Store) (ts : List MP.Task) (parent_id d : String) (t : MP.Task),
      MP.loadRecord store = some ts →
      MP.TaskList.get_task_by_id ts parent_id = some t →
      ∃ r, MP.goModify (MP.addChildMut parent_id d) ts (MP.splitDots parent_id) = some r ∧
        MP.serverAddSubtask store parent_id d =
          some (.ok r.1, some (MP.TaskList.save r.2))) ∧
    (∀ (store : MP.Store) (ts : List MP.Task) (task_id : String) (st : MP.TaskState)
      (t : MP.Task), MP.loadRecord store = some ts →
      MP.TaskList.get_task_by_id ts task_id = some t →
      ∃ ts', MP.TaskList.update_task_state ts task_id st = (true, ts') ∧
        MP.serverUpdateTaskState store task_id st =
          some (true, some (MP.TaskList.save ts'))) ∧
    (∀ (store : MP.Store) (ts : List MP.Task) (task_id : String) (t : MP.Task),
      MP.loadRecord store = some ts →
      MP.TaskList.get_task_by_id ts task_id = some t →
      ∃ ts', MP.goServerDelete ts (MP.splitDots task_id) = some ts' ∧
        MP.serverDeleteTask store task_id = some (true, some (MP.TaskList.save ts'))) := by
  refine ⟨?_, ?_, ?_, ?_⟩
  · intro store ts d hload
    rw [MP.serverAddTask, hload]
    rfl
  · intro store ts parent_id d t hload hres
    obtain ⟨hguard, hresolve⟩ := MP.get_task_by_id_some hres
    obtain ⟨r, hr⟩ := MP.goModify_some_of_resolve (MP.addChildMut parent_id d) hresolve
    refine ⟨r, hr, ?_⟩
    rw [MP.serverAddSubtask, hload]
    simp only [Option.map_some']
    rw [if_neg hguard, hr]
  · intro store ts task_id st t hload hres
    obtain ⟨hguard, hresolve⟩ := MP.get_task_by_id_some hres
    obtain ⟨r, hr⟩ :=
      MP.goModify_some_of_resolve (fun u => ((), MP.Task.setState u st)) hresolve
    refine ⟨r.2, ?_, ?_⟩
    · rw [MP.TaskList.update_task_state, if_neg hguard, hr]
    · rw [MP.serverUpdateTaskState, hload]
      simp only [Option.map_some']
      rw [MP.TaskList.update_task_state, if_neg hguard, hr]
      rfl
  · intro store ts task_id t hload hres
    obtain ⟨hguard, hresolve⟩ := MP.get_task_by_id_some hres
    obtain ⟨ts', hts'⟩ := MP.goServerDelete_some_of_resolve hresolve
    refine ⟨ts', hts', ?_⟩
    rw [MP.serverDeleteTask, hload]
    simp only [Option.map_some']
    rw [if_neg hguard, hts']

/-- C5 witness: the write-through facts evaluated on a store holding one
root task "a". -/
theorem C5_write_through_witness :
    MP.serverAddTask (some (MP.TaskList.save [MP.newTask "a"])) "b" =
      some ("2", some (MP.TaskList.save [MP.newTask "a", MP.newTask "b"])) ∧
    (∃ r, MP.goModify (MP.addChildMut "1" "c") [MP.newTask "a"] (MP.splitDots "1") = some r ∧
      MP.serverAddSubtask (some (MP.TaskList.save [MP.newTask "a"])) "1" "c" =
        some (.ok r.1, some (MP.TaskList.save r.2))) ∧
    (∃ ts', MP.TaskList.update_task_state [MP.newTask "a"] "1" .completed = (true, ts') ∧
      MP.serverUpdateTaskState (some (MP.TaskList.save [MP.newTask "a"])) "1" .completed =
        some (true, some (MP.TaskList.save ts'))) ∧
    (∃ ts', MP.goServerDelete [MP.newTask "a"] (MP.splitDots "1") = some ts' ∧
      MP.serverDeleteTask (some (MP.TaskList.save [MP.newTask "a"])) "1" =
        some (true, some (MP.TaskList.save ts'))) := by
  have hload := MP.loadRecord_save [MP.newTask "a"]
  have hres : MP.TaskList.get_task_by_id [MP.newTask "a"] "1" = some (MP.newTask "a") := by
    decide
  exact ⟨C5_write_through.1 _ [MP.newTask "a"] "b" hload,
    C5_write_through.2.1 _ _ "1" "c" _ hload hres,
    C5_write_through.2.2.1 _ _ "1" .completed _ hload hres,
    C5_write_through.2.2.2 _ _ "1" _ hload hres⟩

/-- C6: when the non-null parent identifier does not resolve, `add_subtask`
raises the user-facing `ValueError` "Task with ID ... not found" (the spec's
`ParentNotFound`) before any mutation, and the durable record is unchanged:
the returned store is the input store, unsaved. -/
theorem C6_add_invalid_parent (store : MP.Store) (ts : List MP.Task)
    (parent_id d : String) (hload : MP.loadRecord store = some ts)
    (hfail : MP.TaskList.get_task_by_id ts parent_id = none) :
    MP.serverAddSubtask store parent_id d =
      some (.raised ("Task with ID " ++ parent_id ++ " not found"), store) := by
  rw [MP.serverAddSubtask, hload]
  simp only [Option.map_some']
  rw [MP.TaskList.get_task_by_id] at hfail
  by_cases hguard : parent_id = "" ∨ ts = []
  · rw [if_pos hguard]
  · rw [if_neg hguard] at hfail ⊢
    rw [MP.goModify_none_of_resolve_none _ hfail]

/-- C6 witness: identifier "5" does not resolve in a one-task tree; the call
raises and the store is untouched. -/
theorem C6_add_invalid_parent_witness :
    MP.serverAddSubtask (some (MP.TaskList.save [MP.newTask "a"])) "5" "x" =
      some (.raised "Task with ID 5 not found", some (MP.TaskList.save [MP.newTask "a"])) :=
  C6_add_invalid_parent _ _ "5" "x" (MP.loadRecord_save _) (by decide)


/-- C10: the `subtasks` field is never `None` on any reachable tree: freshly
constructed tasks have it initialized (`model_post_init`), every operation —
add (root or subtask), update-state, delete, load — preserves the
invariant, and consequently the `assert ... subtasks is not None` statements
cannot fail: identifier resolution never returns the `AssertionError`
marker, the markdown traversal's assert-success predicate holds on every
node, and every tree that `load` builds satisfies the invariant (its own
assert inspects a task just constructed through `model_post_init`). -/
theorem C10_subtasks_never_none :
    (∀ d, Raw.RDefined (Raw.rNewTask d)) ∧
    (∀ ts, Raw.RReach ts → Raw.RDefinedL ts) ∧
    (∀ ts, Raw.RReach ts → ∀ segs e, Raw.rGetById ts segs ≠ .error e) ∧
    (∀ ts, Raw.RReach ts → ∀ t ∈ ts, Raw.rMarkdownOk t = true) ∧
    (∀ (j : MP.JVal) (ts : List Raw.RTask),
      Raw.rLoadTasks j = some ts → Raw.RDefinedL ts) := by
  refine ⟨Raw.rDefined_newTask, fun ts h => Raw.rReach_defined h, ?_, ?_,
    fun j ts h => Raw.rLoadTasks_defined h⟩
  · intro ts h segs e
    exact Raw.rGetById_ok segs ts (Raw.rReach_defined h) e
  · intro ts h t ht
    exact Raw.rMarkdownOk_defined (Raw.rReach_defined h t ht)

/-- C10 witness: the invariant and assert-success facts instantiated on the
tree reached by one add. -/
theorem C10_subtasks_never_none_witness :
    Raw.RDefined (Raw.rNewTask "a") ∧
    Raw.RDefinedL (Raw.rAddRootTask [] "a") ∧
    Raw.rGetById (Raw.rAddRootTask [] "a") ["1"] ≠ .error () ∧
    Raw.rMarkdownOk (Raw.rNewTask "a") = true := by
  have hreach : Raw.RReach (Raw.rAddRootTask [] "a") :=
    Raw.RReach.addRoot "a" Raw.RReach.empty
  refine ⟨C10_subtasks_never_none.1 "a", C10_subtasks_never_none.2.1 _ hreach,
    C10_subtasks_never_none.2.2.1 _ hreach ["1"] (), ?_⟩
  exact C10_subtasks_never_none.2.2.2.1 _ hreach (Raw.rNewTask "a")
    (by simp [Raw.rAddRootTask])
